import Mathlib

/-!
Verification development for the allocation optimizer of the
financial-dashboard repository (`src/or_module.py`).

All numeric values are modelled as rationals (`ℚ`): the Python code works
with floats, but every constant appearing in the claims (tolerances
`1e-9`, `1e-6`, shares, volumes) is exactly representable and the
algorithms perform only field operations and comparisons.

Layers of the embedding, mirroring the source:
* `DataFrame` / `TradeRow`: the in-memory trade table handed to the core.
* `_prepare_maker_stats` (lines 50-80): per-maker statistics; here we embed
  the capacity pipeline (group by `(trade_date, maker_bank)`, sum `amount`,
  then take the `capacity_percentile` quantile per maker) and the column
  check.
* `optimize_allocation` (lines 83-182): parameter validation, bounds,
  aggregate feasibility checks (all raises before the solver is invoked
  are collected in `preCheck` / `optimize_allocation_err`), then the LP
  solve.  The LP model itself (variables bounded by `lower`/`upper`,
  one equality constraint, linear objective, lines 132-142) is embedded as
  the predicates `LpFeasible` / `LpOptimal`; the call into the external
  PuLP/CBC library is modelled by its contract: a successful run returns
  some `x` with `LpOptimal x`.
* the constructive greedy algorithm of the specification (§4.3), used by
  the refinement claim C1: `greedy_allocation`.
* `baseline_allocation_cost` (lines 185-196).
-/

/-- One trade record (spec §3 TradeRecord): the four fields the core reads. -/
structure TradeRow where
  trade_date : String
  maker_bank : String
  amount : ℚ
  rate : ℚ
deriving DecidableEq

/-- The input table: the set of columns actually present (pandas columns)
together with the row data.  When a required column is missing the code
fails before reading any value, so rows always carry all four fields here. -/
structure DataFrame where
  columns : List String
  rows : List TradeRow
deriving DecidableEq

/-- The distinct error messages raised by `or_module.py` (all are the single
Python class `OptimizationError`; the spec's taxonomy §7 distinguishes them
by message, which we model as distinct constructors). -/
inductive OptError where
  | validationTarget
  | validationShare
  | dataMissing (missing : List String)
  | insufficientMakers
  | infeasibleLowerBound
  | infeasibleCapacity
deriving DecidableEq

/-- The required columns of `_prepare_maker_stats` (line 63), listed in the
order Python's `sorted` produces, so that `missingColumns` is the sorted
list of missing names joined into the error message at line 66. -/
def requiredColumns : List String := ["amount", "maker_bank", "rate", "trade_date"]

/-- The sorted list of required columns absent from the input
(`needed - set(df.columns)` at line 64). -/
def missingColumns (df : DataFrame) : List String :=
  requiredColumns.filter (fun c => !(df.columns.contains c))

/-- Rows of one maker (`df.groupby("maker_bank")` group). -/
def rowsOf (df : DataFrame) (m : String) : List TradeRow :=
  df.rows.filter (fun r => r.maker_bank == m)

/-- The groupby keys: distinct `maker_bank` values, in sorted order
(pandas sorts group keys). -/
def makersOf (df : DataFrame) : List String :=
  List.insertionSort (· ≤ ·) (df.rows.map TradeRow.maker_bank).dedup

/-- Mean of `rate` over one maker's trades (line 69). -/
def avg_rate_of (df : DataFrame) (m : String) : ℚ :=
  ((rowsOf df m).map TradeRow.rate).sum / ((rowsOf df m).length : ℚ)

/-- Sum of `amount` over one maker's trades (line 72). -/
def total_volume_of (df : DataFrame) (m : String) : ℚ :=
  ((rowsOf df m).map TradeRow.amount).sum

/-- The distinct `(trade_date, maker_bank)` pairs of the table: the index of
`df.groupby(["trade_date", "maker_bank"])["amount"].sum()` (line 75). -/
def dailyKeys (df : DataFrame) : List (String × String) :=
  (df.rows.map (fun r => (r.trade_date, r.maker_bank))).dedup

/-- Total `amount` traded by maker `m` on date `d` (one entry of the
`daily` series at line 75). -/
def dayVolume (df : DataFrame) (m d : String) : ℚ :=
  ((df.rows.filter (fun r => r.trade_date == d && r.maker_bank == m)).map TradeRow.amount).sum

/-- The per-day volume values of maker `m`, read off the grouped `daily`
table (line 76): the entries of the `(date, maker)` sums whose maker is `m`. -/
def makerDayValues (df : DataFrame) (m : String) : List ℚ :=
  ((dailyKeys df).filter (fun p => p.2 == m)).map (fun p => dayVolume df m p.1)

/-- Ascending sort of a list of rationals (pandas sorts the values of a
group before interpolating a quantile). -/
def sortQ (l : List ℚ) : List ℚ := List.insertionSort (· ≤ ·) l

/-- Linear-interpolation quantile of an ascending-sorted list, the default
`Series.quantile` rule used at line 76: with `n` values, the quantile sits
at fractional position `q * (n - 1)`. -/
def pandasQuantile (q : ℚ) (xs : List ℚ) : ℚ :=
  let n := xs.length
  let h := q * ((n : ℚ) - 1)
  let i := (Int.floor h).toNat
  if i + 1 < n then xs.getD i 0 + (h - (i : ℚ)) * (xs.getD (i + 1) 0 - xs.getD i 0)
  else xs.getD i 0

/-- Capacity of maker `m`: the `capacity_percentile` quantile of its per-day
summed volumes (`daily.groupby("maker_bank")["amount"].quantile(...)`,
line 76). -/
def capacityOf (df : DataFrame) (pct : ℚ) (m : String) : ℚ :=
  pandasQuantile pct (sortQ (makerDayValues df m))

/-- The claim-side description of C7: the per-day volume series of maker
`m`, built directly from that maker's rows (one summed value per distinct
trading day). -/
def perDaySeries (df : DataFrame) (m : String) : List ℚ :=
  ((rowsOf df m).map TradeRow.trade_date).dedup.map (fun d => dayVolume df m d)

/-- Per-maker statistics consumed by the solver stage of
`optimize_allocation` (the `maker_stats` table): identifier, mean rate,
standard deviation of the rate (already `fillna(0)`-clamped, line 79), and
capacity. -/
structure MakerStat where
  maker_bank : String
  avg_rate : ℚ
  std_rate : ℚ
  capacity : ℚ
deriving DecidableEq

/-- Uniform lower bound `min_share * target_volume` (line 122). -/
def lowerB (minS target : ℚ) : ℚ := minS * target

/-- Upper bound `min(max_share * target_volume, capacity_m)` (line 123). -/
def upperB (maxS target : ℚ) (s : MakerStat) : ℚ := min (maxS * target) s.capacity

/-- Risk-adjusted unit cost `avg_rate_m + risk_aversion * std_rate_m`
(line 136). -/
def unit_cost (risk : ℚ) (s : MakerStat) : ℚ := s.avg_rate + risk * s.std_rate

/-- `sum(lower.values())` (line 126). -/
def sumLower (stats : List MakerStat) (minS target : ℚ) : ℚ :=
  (stats.map (fun _ => lowerB minS target)).sum

/-- `sum(upper.values())` (line 128). -/
def sumUpper (stats : List MakerStat) (maxS target : ℚ) : ℚ :=
  (stats.map (upperB maxS target)).sum

/-- All checks of `optimize_allocation` that run before the solver is
invoked, at the stats level and in source order (lines 111-129): parameter
validation, the two-maker requirement, and the two aggregate feasibility
checks with tolerance `1e-9`.  `none` means the solve at line 145 is
reached. -/
def preCheck (stats : List MakerStat) (target minS maxS : ℚ) : Option OptError :=
  if target ≤ 0 then some OptError.validationTarget
  else if ¬ (0 ≤ minS ∧ minS ≤ maxS ∧ maxS ≤ 1) then some OptError.validationShare
  else if stats.length < 2 then some OptError.insufficientMakers
  else if target < sumLower stats minS target - 1 / 1000000000 then some OptError.infeasibleLowerBound
  else if sumUpper stats maxS target + 1 / 1000000000 < target then some OptError.infeasibleCapacity
  else none

/-- The checks of `optimize_allocation` at the DataFrame level, in source
order (lines 111-129): parameter validation (lines 111-114) runs before
`_prepare_maker_stats` (line 116), whose column check comes next, then the
maker count and the aggregate feasibility checks over the derived bounds. -/
def optimize_allocation_err (df : DataFrame) (target minS maxS pct : ℚ) : Option OptError :=
  if target ≤ 0 then some OptError.validationTarget
  else if ¬ (0 ≤ minS ∧ minS ≤ maxS ∧ maxS ≤ 1) then some OptError.validationShare
  else if missingColumns df ≠ [] then some (OptError.dataMissing (missingColumns df))
  else if (makersOf df).length < 2 then some OptError.insufficientMakers
  else if target < ((makersOf df).map (fun _ => minS * target)).sum - 1 / 1000000000 then
    some OptError.infeasibleLowerBound
  else if ((makersOf df).map (fun m => min (maxS * target) (capacityOf df pct m))).sum
      + 1 / 1000000000 < target then
    some OptError.infeasibleCapacity
  else none

/-- Sum of an allocation `x` over the makers of the LP
(`pulp.lpSum(x[m] for m in makers)`, line 142). -/
def allocSum (stats : List MakerStat) (x : String → ℚ) : ℚ :=
  (stats.map (fun s => x s.maker_bank)).sum

/-- The feasible set of the linear program built at lines 133 and 142:
box constraints `lower ≤ x_m ≤ upper_m` on each variable and the single
equality constraint `Σ x_m = target_volume`. -/
def LpFeasible (stats : List MakerStat) (target minS maxS : ℚ) (x : String → ℚ) : Prop :=
  allocSum stats x = target ∧
    ∀ s ∈ stats, lowerB minS target ≤ x s.maker_bank ∧ x s.maker_bank ≤ upperB maxS target s

/-- The objective of the linear program (line 139):
`Σ unit_cost_m * x_m`. -/
def LpCost (stats : List MakerStat) (risk : ℚ) (x : String → ℚ) : ℚ :=
  (stats.map (fun s => unit_cost risk s * x s.maker_bank)).sum

/-- Modelled from the spec: the call into the external PuLP/CBC solver
(line 145, the `pulp` library is not part of this repository) is modelled
by its contract — when `optimize_allocation` returns successfully with
status `"Optimal"`, the values read back at line 153 form a feasible
minimizer of the objective.  Everything else about the LP (bounds,
constraint, objective) is embedded from the source. -/
def LpOptimal (stats : List MakerStat) (target minS maxS risk : ℚ) (x : String → ℚ) : Prop :=
  LpFeasible stats target minS maxS x ∧
    ∀ y, LpFeasible stats target minS maxS y → LpCost stats risk x ≤ LpCost stats risk y

/-- Ordering of the specification's greedy algorithm (§4.3 step 2):
ascending `unit_cost`, exact ties broken lexicographically by maker
identifier. -/
def makerLE (risk : ℚ) (a b : MakerStat) : Prop :=
  unit_cost risk a < unit_cost risk b ∨
    (unit_cost risk a = unit_cost risk b ∧ a.maker_bank ≤ b.maker_bank)

instance (risk : ℚ) : DecidableRel (makerLE risk) := fun a b => by
  unfold makerLE; infer_instance

instance (risk : ℚ) : IsTotal MakerStat (makerLE risk) where
  total a b := by
    rcases lt_trichotomy (unit_cost risk a) (unit_cost risk b) with h | h | h
    · exact Or.inl (Or.inl h)
    · rcases le_total a.maker_bank b.maker_bank with hn | hn
      · exact Or.inl (Or.inr ⟨h, hn⟩)
      · exact Or.inr (Or.inr ⟨h.symm, hn⟩)
    · exact Or.inr (Or.inl h)

instance (risk : ℚ) : IsTrans MakerStat (makerLE risk) where
  trans a b c hab hbc := by
    rcases hab with hab | ⟨hab, hab2⟩
    · rcases hbc with hbc | ⟨hbc, _⟩
      · exact Or.inl (hab.trans hbc)
      · exact Or.inl (hbc ▸ hab)
    · rcases hbc with hbc | ⟨hbc, hbc2⟩
      · exact Or.inl (hab ▸ hbc)
      · exact Or.inr ⟨hab.trans hbc, hab2.trans hbc2⟩

/-- The makers in the processing order of the greedy algorithm. -/
def sortMakers (risk : ℚ) (stats : List MakerStat) : List MakerStat :=
  List.insertionSort (makerLE risk) stats

/-- Core loop of the specification's greedy algorithm (§4.3 step 3): walk
the sorted makers, start each at the uniform lower bound `lo` and add
`min(room, remaining)`. Returns each maker paired with its allocation. -/
def greedyGo (lo : ℚ) (up : MakerStat → ℚ) : ℚ → List MakerStat → List (MakerStat × ℚ)
  | _, [] => []
  | rem, s :: rest =>
    let add := min (up s - lo) rem
    (s, lo + add) :: greedyGo lo up (rem - add) rest

/-- The specification's constructive greedy allocation (§4.3 steps 1-3):
initialize every maker at `lower`, sort by ascending unit cost with
lexicographic tie-break, distribute `target - Σ lower` in that order. -/
def greedy_allocation (stats : List MakerStat) (target minS maxS risk : ℚ) :
    List (MakerStat × ℚ) :=
  greedyGo (lowerB minS target) (upperB maxS target)
    (target - sumLower stats minS target) (sortMakers risk stats)

/-- Reads an allocation function back off a list of (maker, volume) pairs
(used to hand the greedy allocation to the LP predicates). -/
def gfun (G : List (MakerStat × ℚ)) (m : String) : ℚ :=
  match G.find? (fun p => p.1.maker_bank == m) with
  | some p => p.2
  | none => 0

/-- One row of the returned allocation DataFrame (lines 161-173). -/
structure AllocRow where
  maker_bank : String
  avg_rate : ℚ
  std_rate : ℚ
  capacity : ℚ
  lower_bound : ℚ
  upper_bound : ℚ
  alloc_volume : ℚ
  alloc_pct : ℚ
  unit_cost : ℚ
  cost : ℚ
  risk_adj_cost : ℚ
deriving DecidableEq

/-- Builds the result row of one maker from the solver values
(lines 152-173). -/
def allocRow (target minS maxS risk : ℚ) (x : String → ℚ) (s : MakerStat) : AllocRow :=
  { maker_bank := s.maker_bank
    avg_rate := s.avg_rate
    std_rate := s.std_rate
    capacity := s.capacity
    lower_bound := lowerB minS target
    upper_bound := upperB maxS target s
    alloc_volume := x s.maker_bank
    alloc_pct := if target = 0 then 0 else x s.maker_bank / target
    unit_cost := unit_cost risk s
    cost := x s.maker_bank * s.avg_rate
    risk_adj_cost := x s.maker_bank * unit_cost risk s }

/-- Descending order on result rows by `alloc_volume`. -/
def rowGE (a b : AllocRow) : Prop := b.alloc_volume ≤ a.alloc_volume

instance : DecidableRel rowGE := fun a b => by unfold rowGE; infer_instance

instance : IsTotal AllocRow rowGE where
  total a b := le_total b.alloc_volume a.alloc_volume

instance : IsTrans AllocRow rowGE where
  trans _ _ _ hab hbc := le_trans hbc hab

/-- The returned allocation table
(`pd.DataFrame(rows).sort_values("alloc_volume", ascending=False)`,
line 175): one row per maker, sorted by descending allocated volume. -/
def alloc_df (stats : List MakerStat) (target minS maxS risk : ℚ) (x : String → ℚ) :
    List AllocRow :=
  List.insertionSort rowGE (stats.map (allocRow target minS maxS risk x))

/-- Total historical volume as the code computes it (`vols.sum()`,
line 189). -/
def totalVol (df : DataFrame) : ℚ :=
  ((makersOf df).map (fun m => total_volume_of df m)).sum

/-- `baseline_allocation_cost` (lines 185-196): allocate `target_volume`
proportionally to historical volume shares, priced at each maker's mean
rate; 0 when the total historical volume is not positive.  The
`rates.get(m, 0.0)` default of line 195 is modelled by the membership
test. -/
def baseline_allocation_cost (df : DataFrame) (target : ℚ) : ℚ :=
  if totalVol df ≤ 0 then 0
  else
    ((makersOf df).map (fun m =>
      (total_volume_of df m / totalVol df) * target *
        (if m ∈ makersOf df then avg_rate_of df m else 0))).sum

/-- The claim-side formula of C9 (spec §4.4): cost of allocating in
proportion to `share_m = total_volume_m / Σ total_volume`, priced at
`avg_rate_m`. -/
def specBaselineCost (df : DataFrame) (target : ℚ) : ℚ :=
  ((makersOf df).map (fun m =>
    (total_volume_of df m / totalVol df) * target * avg_rate_of df m)).sum

/-! ### Concrete inputs used by witnesses and counterexamples -/

/-- Two makers with identical unit cost 1 and ample capacity: the LP
optimum is not unique, so the external solver may return an allocation
other than the greedy one. -/
def statsTie : List MakerStat := [⟨"A", 1, 0, 100⟩, ⟨"B", 1, 0, 100⟩]

/-- An optimal solution of the LP on `statsTie` that gives everything to
`B`, while the lexicographic greedy gives everything to `A`. -/
def xTie : String → ℚ := fun m => if m = "B" then 100 else 0

/-- Two makers with distinct unit costs 1 < 2, used for witnesses. -/
def statsU : List MakerStat := [⟨"A", 1, 0, 200⟩, ⟨"B", 2, 0, 200⟩]

/-- The unique optimum on `statsU` with `target = 100`, `min_share = 0`,
`max_share = 1`: everything to the cheap maker `A`. -/
def xU : String → ℚ := fun m => if m = "A" then 100 else 0

/-- A feasible (non-optimal) allocation on `statsU`. -/
def xW : String → ℚ := fun m => if m = "A" then 60 else 40

/-- Maker `A` has capacity 100 below the uniform lower bound
`0.3 * 1000 = 300` while both aggregate feasibility checks still pass. -/
def stats4 : List MakerStat := [⟨"A", 1, 0, 100⟩, ⟨"B", 1, 0, 10000⟩, ⟨"C", 1, 0, 10000⟩]

/-- Zero-capacity makers with `min_share = max_share = 3/5`: both aggregate
feasibility checks fail at once. -/
def statsZ : List MakerStat := [⟨"A", 1, 0, 0⟩, ⟨"B", 1, 0, 0⟩]

/-- The spec §8 scenario of claim C6: `avg_rate` 1.01, 1.00, 1.02 and
capacities 600, 500, 400 for A, B, C. -/
def stats6 : List MakerStat := [⟨"A", 101/100, 0, 600⟩, ⟨"B", 1, 0, 500⟩, ⟨"C", 51/50, 0, 400⟩]

/-- A small trade table with all required columns: maker A trades on two
days (30 on d1, 5 on d2), maker B on one day (7 on d1). -/
def dfW : DataFrame :=
  ⟨requiredColumns,
   [⟨"d1", "A", 10, 1⟩, ⟨"d1", "A", 20, 1⟩, ⟨"d2", "A", 5, 1⟩, ⟨"d1", "B", 7, 2⟩]⟩

/-- A table missing every required column. -/
def dfBad : DataFrame := ⟨["foo"], []⟩

/-- A table missing the `amount` and `trade_date` columns. -/
def dfMiss : DataFrame := ⟨["maker_bank", "rate"], []⟩

/-- A table with all required columns but no rows: total historical volume
is 0. -/
def dfE : DataFrame := ⟨requiredColumns, []⟩

/-! ### List-sum helper lemmas -/

theorem sum_map_add_distrib {α : Type} (l : List α) (f g : α → ℚ) :
    (l.map (fun a => f a + g a)).sum = (l.map f).sum + (l.map g).sum := by
  induction l with
  | nil => simp
  | cons a t ih => simp only [List.map_cons, List.sum_cons, ih]; ring

theorem sum_map_sub_distrib {α : Type} (l : List α) (f g : α → ℚ) :
    (l.map (fun a => f a - g a)).sum = (l.map f).sum - (l.map g).sum := by
  induction l with
  | nil => simp
  | cons a t ih => simp only [List.map_cons, List.sum_cons, ih]; ring

theorem sum_map_mul_const {α : Type} (l : List α) (c : ℚ) (f : α → ℚ) :
    (l.map (fun a => c * f a)).sum = c * (l.map f).sum := by
  induction l with
  | nil => simp
  | cons a t ih => simp only [List.map_cons, List.sum_cons, ih]; ring

theorem eq_zero_of_sum_map_eq_zero {α : Type} (l : List α) (f : α → ℚ)
    (h0 : ∀ a ∈ l, 0 ≤ f a) (hs : (l.map f).sum = 0) : ∀ a ∈ l, f a = 0 := by
  induction l with
  | nil => simp
  | cons a t ih =>
    simp only [List.map_cons, List.sum_cons] at hs
    have hta : 0 ≤ f a := h0 a (List.mem_cons_self a t)
    have htt : 0 ≤ (t.map f).sum := by
      apply List.sum_nonneg
      intro v hv
      rcases List.mem_map.mp hv with ⟨b, hb, rfl⟩
      exact h0 b (List.mem_cons_of_mem a hb)
    have hfa : f a = 0 := by linarith
    have hts : (t.map f).sum = 0 := by linarith
    intro b hb
    rcases List.mem_cons.mp hb with rfl | hb
    · exact hfa
    · exact ih (fun c hc => h0 c (List.mem_cons_of_mem a hc)) hts b hb

theorem sum_map_eq_of_eqOn {α : Type} (l : List α) (f g : α → ℚ)
    (h : ∀ a ∈ l, f a = g a) : (l.map f).sum = (l.map g).sum := by
  rw [List.map_congr_left h]

/-! ### Structural lemmas about the greedy loop -/

theorem greedyGo_map_fst (lo : ℚ) (up : MakerStat → ℚ) :
    ∀ (rem : ℚ) (l : List MakerStat), (greedyGo lo up rem l).map Prod.fst = l := by
  intro rem l
  induction l generalizing rem with
  | nil => simp [greedyGo]
  | cons s t ih => simp [greedyGo, ih]

theorem greedyGo_bounds (lo : ℚ) (up : MakerStat → ℚ) :
    ∀ (rem : ℚ) (l : List MakerStat), 0 ≤ rem → (∀ s ∈ l, lo ≤ up s) →
      ∀ p ∈ greedyGo lo up rem l, lo ≤ p.2 ∧ p.2 ≤ up p.1 := by
  intro rem l
  induction l generalizing rem with
  | nil => intro _ _ p hp; simp [greedyGo] at hp
  | cons s t ih =>
    intro hrem hlu p hp
    have hroom : 0 ≤ up s - lo := by
      have := hlu s (List.mem_cons_self s t); linarith
    have hadd_le_rem : min (up s - lo) rem ≤ rem := min_le_right _ _
    have hadd_nonneg : 0 ≤ min (up s - lo) rem := le_min hroom hrem
    rcases List.mem_cons.mp hp with rfl | hp
    · constructor
      · simpa using hadd_nonneg
      · have : min (up s - lo) rem ≤ up s - lo := min_le_left _ _
        simp only []
        linarith
    · exact ih (rem - min (up s - lo) rem) (by linarith)
        (fun a ha => hlu a (List.mem_cons_of_mem s ha)) p hp

theorem greedyGo_sum (lo : ℚ) (up : MakerStat → ℚ) :
    ∀ (rem : ℚ) (l : List MakerStat), 0 ≤ rem → (∀ s ∈ l, lo ≤ up s) →
      ((greedyGo lo up rem l).map Prod.snd).sum =
        (l.map (fun _ => lo)).sum + min rem ((l.map (fun s => up s - lo)).sum) := by
  intro rem l
  induction l generalizing rem with
  | nil => intro h1 _; simp [greedyGo, min_eq_right h1]
  | cons s t ih =>
    intro hrem hlu
    have hroom : 0 ≤ up s - lo := by
      have := hlu s (List.mem_cons_self s t); linarith
    have htail : 0 ≤ (t.map (fun s => up s - lo)).sum := by
      apply List.sum_nonneg
      intro v hv
      rcases List.mem_map.mp hv with ⟨b, hb, rfl⟩
      have := hlu b (List.mem_cons_of_mem s hb); linarith
    simp only [greedyGo, List.map_cons, List.sum_cons]
    rw [ih (rem - min (up s - lo) rem) (by
      have : min (up s - lo) rem ≤ rem := min_le_right _ _
      linarith) (fun a ha => hlu a (List.mem_cons_of_mem s ha))]
    rcases le_total rem (up s - lo) with hc | hc
    · rw [min_eq_right hc]
      have h1 : min (rem - rem) ((t.map (fun s => up s - lo)).sum) = rem - rem := by
        rw [min_eq_left (by linarith)]
      rw [h1]
      have h2 : min rem ((up s - lo) + (t.map (fun s => up s - lo)).sum) = rem := by
        rw [min_eq_left (by linarith)]
      rw [h2]
      ring
    · rw [min_eq_left hc]
      have h2 : min rem ((up s - lo) + (t.map (fun s => up s - lo)).sum) =
          (up s - lo) + min (rem - (up s - lo)) ((t.map (fun s => up s - lo)).sum) := by
        rcases le_total (rem - (up s - lo)) ((t.map (fun s => up s - lo)).sum) with hd | hd
        · rw [min_eq_left hd, min_eq_left (by linarith)]; ring
        · rw [min_eq_right hd, min_eq_right (by linarith)]
      rw [h2]
      ring

theorem greedyGo_zero_rem (lo : ℚ) (up : MakerStat → ℚ) :
    ∀ (l : List MakerStat), (∀ s ∈ l, lo ≤ up s) →
      greedyGo lo up 0 l = l.map (fun s => (s, lo)) := by
  intro l
  induction l with
  | nil => simp [greedyGo]
  | cons s t ih =>
    intro hlu
    have hroom : 0 ≤ up s - lo := by
      have := hlu s (List.mem_cons_self s t); linarith
    have hmin : min (up s - lo) 0 = 0 := min_eq_right hroom
    simp only [greedyGo, hmin, add_zero, sub_zero, List.map_cons]
    rw [ih (fun a ha => hlu a (List.mem_cons_of_mem s ha))]

theorem greedyGo_split (lo : ℚ) (up : MakerStat → ℚ) :
    ∀ (rem : ℚ) (l : List MakerStat), 0 ≤ rem → (∀ s ∈ l, lo ≤ up s) →
      (∀ p ∈ greedyGo lo up rem l, p.2 = up p.1) ∨
      (∃ A q v B, l = A ++ q :: B ∧
        greedyGo lo up rem l =
          A.map (fun s => (s, up s)) ++ (q, v) :: B.map (fun s => (s, lo)) ∧
        lo ≤ v ∧ v ≤ up q) := by
  intro rem l
  induction l generalizing rem with
  | nil => intro _ _; left; intro p hp; simp [greedyGo] at hp
  | cons s t ih =>
    intro hrem hlu
    have hroom : 0 ≤ up s - lo := by
      have := hlu s (List.mem_cons_self s t); linarith
    rcases le_total (up s - lo) rem with hc | hc
    · -- s is filled to its upper bound
      have hmin : min (up s - lo) rem = up s - lo := min_eq_left hc
      rcases ih (rem - (up s - lo)) (by linarith)
          (fun a ha => hlu a (List.mem_cons_of_mem s ha)) with hall | ⟨A, q, v, B, hsplit, heq, hv1, hv2⟩
      · left
        intro p hp
        simp only [greedyGo, hmin] at hp
        rcases List.mem_cons.mp hp with rfl | hp
        · simp
        · exact hall p hp
      · right
        refine ⟨s :: A, q, v, B, by simp [hsplit], ?_, hv1, hv2⟩
        have hfill : lo + (up s - lo) = up s := by ring
        simp only [greedyGo, hmin, heq, List.map_cons, List.cons_append, hfill]
    · -- s absorbs all the remaining volume
      have hmin : min (up s - lo) rem = rem := min_eq_right hc
      right
      refine ⟨[], s, lo + rem, t, rfl, ?_, by linarith, by linarith⟩
      have hz : rem - rem = 0 := by ring
      simp only [greedyGo, hmin, hz, List.map_nil, List.nil_append]
      rw [greedyGo_zero_rem lo up t (fun a ha => hlu a (List.mem_cons_of_mem s ha))]

/-! ### Reading the greedy pairs back as an allocation function -/

theorem gfun_eq (G : List (MakerStat × ℚ))
    (hnd : (G.map (fun p => p.1.maker_bank)).Nodup) :
    ∀ p ∈ G, gfun G p.1.maker_bank = p.2 := by
  induction G with
  | nil => simp
  | cons a t ih =>
    simp only [List.map_cons, List.nodup_cons] at hnd
    intro p hp
    rcases List.mem_cons.mp hp with rfl | hp
    · simp [gfun, List.find?_cons_of_pos]
    · have hne : (a.1.maker_bank == p.1.maker_bank) = false := by
        rw [beq_eq_false_iff_ne]
        intro hcontra
        exact hnd.1 (hcontra ▸ List.mem_map.mpr ⟨p, hp, rfl⟩)
      have : gfun (a :: t) p.1.maker_bank = gfun t p.1.maker_bank := by
        simp [gfun, List.find?_cons_of_neg, hne]
      rw [this]
      exact ih hnd.2 p hp

/-! ### The greedy allocation is feasible -/

theorem sortMakers_map_sum (risk : ℚ) (stats : List MakerStat) (f : MakerStat → ℚ) :
    ((sortMakers risk stats).map f).sum = (stats.map f).sum :=
  ((List.perm_insertionSort (makerLE risk) stats).map f).sum_eq

theorem sortMakers_mem (risk : ℚ) (stats : List MakerStat) (s : MakerStat) :
    s ∈ sortMakers risk stats ↔ s ∈ stats :=
  (List.perm_insertionSort (makerLE risk) stats).mem_iff

theorem feasible_lo_le_up (stats : List MakerStat) (target minS maxS : ℚ) (x : String → ℚ)
    (hfeas : LpFeasible stats target minS maxS x) :
    ∀ s ∈ stats, lowerB minS target ≤ upperB maxS target s := by
  intro s hs
  rcases hfeas.2 s hs with ⟨h1, h2⟩
  linarith

theorem feasible_rem_nonneg (stats : List MakerStat) (target minS maxS : ℚ) (x : String → ℚ)
    (hfeas : LpFeasible stats target minS maxS x) :
    0 ≤ target - sumLower stats minS target := by
  have hle : sumLower stats minS target ≤ allocSum stats x := by
    apply List.sum_le_sum
    intro s hs
    exact (hfeas.2 s hs).1
  rw [hfeas.1] at hle
  linarith

theorem feasible_target_le_sumUpper (stats : List MakerStat) (target minS maxS : ℚ)
    (x : String → ℚ) (hfeas : LpFeasible stats target minS maxS x) :
    target ≤ sumUpper stats maxS target := by
  have hle : allocSum stats x ≤ sumUpper stats maxS target := by
    apply List.sum_le_sum
    intro s hs
    exact (hfeas.2 s hs).2
  rw [hfeas.1] at hle
  exact hle

theorem greedy_total (stats : List MakerStat) (target minS maxS risk : ℚ)
    (x : String → ℚ) (hfeas : LpFeasible stats target minS maxS x) :
    ((greedy_allocation stats target minS maxS risk).map Prod.snd).sum = target := by
  have hlu : ∀ s ∈ sortMakers risk stats, lowerB minS target ≤ upperB maxS target s :=
    fun s hs => feasible_lo_le_up stats target minS maxS x hfeas s
      ((sortMakers_mem risk stats s).mp hs)
  have hrem : 0 ≤ target - sumLower stats minS target :=
    feasible_rem_nonneg stats target minS maxS x hfeas
  unfold greedy_allocation
  rw [greedyGo_sum _ _ _ _ hrem hlu]
  have hlo : ((sortMakers risk stats).map (fun _ => lowerB minS target)).sum =
      sumLower stats minS target :=
    sortMakers_map_sum risk stats _
  have hroom : ((sortMakers risk stats).map
      (fun s => upperB maxS target s - lowerB minS target)).sum =
      sumUpper stats maxS target - sumLower stats minS target := by
    rw [sum_map_sub_distrib]
    rw [sortMakers_map_sum risk stats (upperB maxS target)]
    rw [sortMakers_map_sum risk stats (fun _ => lowerB minS target)]
    rfl
  rw [hlo, hroom]
  have hub : target ≤ sumUpper stats maxS target :=
    feasible_target_le_sumUpper stats target minS maxS x hfeas
  rw [min_eq_left (by linarith)]
  ring

theorem greedy_bounds (stats : List MakerStat) (target minS maxS risk : ℚ)
    (x : String → ℚ) (hfeas : LpFeasible stats target minS maxS x) :
    ∀ p ∈ greedy_allocation stats target minS maxS risk,
      lowerB minS target ≤ p.2 ∧ p.2 ≤ upperB maxS target p.1 := by
  have hlu : ∀ s ∈ sortMakers risk stats, lowerB minS target ≤ upperB maxS target s :=
    fun s hs => feasible_lo_le_up stats target minS maxS x hfeas s
      ((sortMakers_mem risk stats s).mp hs)
  have hrem : 0 ≤ target - sumLower stats minS target :=
    feasible_rem_nonneg stats target minS maxS x hfeas
  exact greedyGo_bounds _ _ _ _ hrem hlu

theorem greedy_names_nodup (stats : List MakerStat) (target minS maxS risk : ℚ)
    (hnd : (stats.map MakerStat.maker_bank).Nodup) :
    ((greedy_allocation stats target minS maxS risk).map (fun p => p.1.maker_bank)).Nodup := by
  have hfst : (greedy_allocation stats target minS maxS risk).map Prod.fst =
      sortMakers risk stats := greedyGo_map_fst _ _ _ _
  have hmapped : (greedy_allocation stats target minS maxS risk).map (fun p => p.1.maker_bank) =
      (sortMakers risk stats).map MakerStat.maker_bank := by
    rw [← hfst, List.map_map]
    rfl
  rw [hmapped]
  exact (((List.perm_insertionSort (makerLE risk) stats).map
    MakerStat.maker_bank).nodup_iff).mpr hnd

theorem greedy_sum_over_stats (stats : List MakerStat) (target minS maxS risk : ℚ)
    (hnd : (stats.map MakerStat.maker_bank).Nodup) (f : MakerStat → ℚ → ℚ) :
    (stats.map (fun s =>
        f s (gfun (greedy_allocation stats target minS maxS risk) s.maker_bank))).sum =
      ((greedy_allocation stats target minS maxS risk).map (fun p => f p.1 p.2)).sum := by
  set G := greedy_allocation stats target minS maxS risk with hG
  have hfst : G.map Prod.fst = sortMakers risk stats := greedyGo_map_fst _ _ _ _
  have h1 : (stats.map (fun s => f s (gfun G s.maker_bank))).sum =
      ((sortMakers risk stats).map (fun s => f s (gfun G s.maker_bank))).sum :=
    (sortMakers_map_sum risk stats _).symm
  have h2 : ((sortMakers risk stats).map (fun s => f s (gfun G s.maker_bank))).sum =
      (G.map (fun p => f p.1 (gfun G p.1.maker_bank))).sum := by
    rw [← hfst, List.map_map]
    rfl
  have h3 : (G.map (fun p => f p.1 (gfun G p.1.maker_bank))).sum =
      (G.map (fun p => f p.1 p.2)).sum := by
    apply sum_map_eq_of_eqOn
    intro p hp
    rw [gfun_eq G (greedy_names_nodup stats target minS maxS risk hnd) p hp]
  rw [h1, h2, h3]

theorem greedy_gfun_feasible (stats : List MakerStat) (target minS maxS risk : ℚ)
    (x : String → ℚ) (hnd : (stats.map MakerStat.maker_bank).Nodup)
    (hfeas : LpFeasible stats target minS maxS x) :
    LpFeasible stats target minS maxS
      (gfun (greedy_allocation stats target minS maxS risk)) := by
  set G := greedy_allocation stats target minS maxS risk with hG
  constructor
  · have h1 : allocSum stats (gfun G) = (G.map (fun p => p.2)).sum :=
      greedy_sum_over_stats stats target minS maxS risk hnd (fun _ v => v)
    rw [h1]
    exact greedy_total stats target minS maxS risk x hfeas
  · intro s hs
    have hsL : s ∈ sortMakers risk stats := (sortMakers_mem risk stats s).mpr hs
    have hfst : G.map Prod.fst = sortMakers risk stats := greedyGo_map_fst _ _ _ _
    have hsG : ∃ p ∈ G, p.1 = s := by
      have : s ∈ G.map Prod.fst := hfst ▸ hsL
      rcases List.mem_map.mp this with ⟨p, hp, hps⟩
      exact ⟨p, hp, hps⟩
    rcases hsG with ⟨p, hp, rfl⟩
    have hv : gfun G p.1.maker_bank = p.2 :=
      gfun_eq G (greedy_names_nodup stats target minS maxS risk hnd) p hp
    rw [hv]
    exact greedy_bounds stats target minS maxS risk x hfeas p hp

theorem greedy_gfun_cost (stats : List MakerStat) (target minS maxS risk : ℚ)
    (hnd : (stats.map MakerStat.maker_bank).Nodup) :
    LpCost stats risk (gfun (greedy_allocation stats target minS maxS risk)) =
      ((greedy_allocation stats target minS maxS risk).map
        (fun p => unit_cost risk p.1 * p.2)).sum :=
  greedy_sum_over_stats stats target minS maxS risk hnd (fun s v => unit_cost risk s * v)

/-! ### Uniqueness of the optimum under distinct unit costs -/

theorem sum_map_mul_expand {α : Type} (l : List α) (f g u w : α → ℚ) :
    (l.map (fun a => (f a - g a) * (u a - w a))).sum =
      (l.map (fun a => f a * u a)).sum - (l.map (fun a => f a * w a)).sum
      - (l.map (fun a => g a * u a)).sum + (l.map (fun a => g a * w a)).sum := by
  induction l with
  | nil => simp
  | cons a t ih => simp only [List.map_cons, List.sum_cons, ih]; ring

theorem greedy_unique (stats : List MakerStat) (target minS maxS risk : ℚ) (x : String → ℚ)
    (hnd : (stats.map MakerStat.maker_bank).Nodup)
    (hcost : (stats.map (unit_cost risk)).Nodup)
    (hfeas : LpFeasible stats target minS maxS x)
    (hmin : ∀ y, LpFeasible stats target minS maxS y →
      LpCost stats risk x ≤ LpCost stats risk y) :
    ∀ p ∈ greedy_allocation stats target minS maxS risk, x p.1.maker_bank = p.2 := by
  have hGG : greedy_allocation stats target minS maxS risk =
      greedyGo (lowerB minS target) (upperB maxS target)
        (target - sumLower stats minS target) (sortMakers risk stats) := rfl
  have hperm : List.Perm (sortMakers risk stats) stats :=
    List.perm_insertionSort (makerLE risk) stats
  have hxb : ∀ s ∈ sortMakers risk stats,
      lowerB minS target ≤ x s.maker_bank ∧ x s.maker_bank ≤ upperB maxS target s :=
    fun s hs => hfeas.2 s ((sortMakers_mem risk stats s).mp hs)
  have hlu : ∀ s ∈ sortMakers risk stats, lowerB minS target ≤ upperB maxS target s :=
    fun s hs => feasible_lo_le_up stats target minS maxS x hfeas s
      ((sortMakers_mem risk stats s).mp hs)
  have hrem : 0 ≤ target - sumLower stats minS target :=
    feasible_rem_nonneg stats target minS maxS x hfeas
  have hsumxL : ((sortMakers risk stats).map (fun s => x s.maker_bank)).sum = target := by
    rw [sortMakers_map_sum]; exact hfeas.1
  have hGsum : ((greedy_allocation stats target minS maxS risk).map Prod.snd).sum = target :=
    greedy_total stats target minS maxS risk x hfeas
  have hGfst : (greedy_allocation stats target minS maxS risk).map Prod.fst =
      sortMakers risk stats := greedyGo_map_fst _ _ _ _
  rcases greedyGo_split (lowerB minS target) (upperB maxS target)
      (target - sumLower stats minS target) (sortMakers risk stats) hrem hlu with
    hall | ⟨A, q, v, B, hLsplit, hGeq, hv1, hv2⟩
  · -- every maker is filled to its upper bound
    rw [← hGG] at hall
    have hupsum : ((sortMakers risk stats).map (upperB maxS target)).sum = target := by
      have h1 : ((greedy_allocation stats target minS maxS risk).map Prod.snd).sum =
          ((greedy_allocation stats target minS maxS risk).map
            (fun p => upperB maxS target p.1)).sum :=
        sum_map_eq_of_eqOn _ _ _ hall
      have h2 : ((greedy_allocation stats target minS maxS risk).map
          (fun p => upperB maxS target p.1)).sum =
          ((sortMakers risk stats).map (upperB maxS target)).sum := by
        rw [← hGfst, List.map_map]; rfl
      rw [← h2, ← h1, hGsum]
    have hzero : ((sortMakers risk stats).map
        (fun s => upperB maxS target s - x s.maker_bank)).sum = 0 := by
      rw [sum_map_sub_distrib, hupsum, hsumxL]; ring
    have hpt : ∀ s ∈ sortMakers risk stats,
        upperB maxS target s - x s.maker_bank = 0 :=
      eq_zero_of_sum_map_eq_zero _ _ (fun s hs => by have := (hxb s hs).2; linarith) hzero
    intro p hp
    have hp1 : p.1 ∈ sortMakers risk stats := by
      rw [← hGfst]; exact List.mem_map.mpr ⟨p, hp, rfl⟩
    have := hpt p.1 hp1
    have hpu := hall p hp
    linarith
  · -- split: prefix at upper bounds, pivot q at v, suffix at lower bounds
    rw [← hGG] at hGeq
    have hsorted : List.Sorted (makerLE risk) (A ++ q :: B) := by
      rw [← hLsplit]; exact List.sorted_insertionSort (makerLE risk) stats
    rcases List.pairwise_append.mp hsorted with ⟨hpA, hpQB, hAcross⟩
    have hAq : ∀ a ∈ A, makerLE risk a q :=
      fun a ha => hAcross a ha q (List.mem_cons_self q B)
    have hqB : ∀ b ∈ B, makerLE risk q b := (List.pairwise_cons.mp hpQB).1
    have hcostL : ((A ++ q :: B).map (unit_cost risk)).Nodup := by
      rw [← hLsplit]
      exact ((hperm.map (unit_cost risk)).nodup_iff).mpr hcost
    rw [List.map_append, List.map_cons] at hcostL
    rcases List.nodup_append.mp hcostL with ⟨hnA, hnQB, hdisj⟩
    have hqnotB : unit_cost risk q ∉ B.map (unit_cost risk) := (List.nodup_cons.mp hnQB).1
    have hAne : ∀ a ∈ A, unit_cost risk a ≠ unit_cost risk q := by
      intro a ha hcontra
      exact hdisj (List.mem_map.mpr ⟨a, ha, rfl⟩)
        (hcontra ▸ List.mem_cons_self (unit_cost risk q) (B.map (unit_cost risk)))
    have hBne : ∀ b ∈ B, unit_cost risk b ≠ unit_cost risk q := by
      intro b hb hcontra
      exact hqnotB (hcontra ▸ List.mem_map.mpr ⟨b, hb, rfl⟩)
    have hAlt : ∀ a ∈ A, unit_cost risk a < unit_cost risk q := by
      intro a ha
      rcases hAq a ha with hlt | ⟨heq, _⟩
      · exact hlt
      · exact absurd heq (hAne a ha)
    have hBgt : ∀ b ∈ B, unit_cost risk q < unit_cost risk b := by
      intro b hb
      rcases hqB b hb with hlt | ⟨heq, _⟩
      · exact hlt
      · exact absurd heq.symm (hBne b hb)
    have hmemA : ∀ a ∈ A, a ∈ sortMakers risk stats := by
      intro a ha; rw [hLsplit]; exact List.mem_append_left _ ha
    have hmemB : ∀ b ∈ B, b ∈ sortMakers risk stats := by
      intro b hb; rw [hLsplit]
      exact List.mem_append_right _ (List.mem_cons_of_mem q hb)
    have hmemq : q ∈ sortMakers risk stats := by
      rw [hLsplit]; exact List.mem_append_right _ (List.mem_cons_self q B)
    -- the three pieces of the equation Σ x = target
    have hsxL : (A.map (fun s => x s.maker_bank)).sum +
        (x q.maker_bank + (B.map (fun s => x s.maker_bank)).sum) = target := by
      rw [← hsumxL, hLsplit, List.map_append, List.sum_append, List.map_cons, List.sum_cons]
    -- the three pieces of the equation Σ greedy = target
    have hsgL : (A.map (upperB maxS target)).sum +
        (v + (B.map (fun _ => lowerB minS target)).sum) = target := by
      have h1 : ((greedy_allocation stats target minS maxS risk).map Prod.snd).sum =
          (A.map (upperB maxS target)).sum +
            (v + (B.map (fun _ => lowerB minS target)).sum) := by
        rw [hGeq, List.map_append, List.sum_append, List.map_cons, List.sum_cons,
          List.map_map, List.map_map]
        rfl
      rw [← h1, hGsum]
    -- the cost of x, split along the pivot
    have hcx : LpCost stats risk x =
        (A.map (fun s => unit_cost risk s * x s.maker_bank)).sum +
          (unit_cost risk q * x q.maker_bank +
            (B.map (fun s => unit_cost risk s * x s.maker_bank)).sum) := by
      have h0 : LpCost stats risk x =
          ((sortMakers risk stats).map (fun s => unit_cost risk s * x s.maker_bank)).sum :=
        (sortMakers_map_sum risk stats _).symm
      rw [h0, hLsplit, List.map_append, List.sum_append, List.map_cons, List.sum_cons]
    -- the cost of the greedy allocation, split along the pivot
    have hcg : LpCost stats risk
        (gfun (greedy_allocation stats target minS maxS risk)) =
        (A.map (fun s => unit_cost risk s * upperB maxS target s)).sum +
          (unit_cost risk q * v +
            (B.map (fun s => unit_cost risk s * lowerB minS target)).sum) := by
      rw [greedy_gfun_cost stats target minS maxS risk hnd, hGeq, List.map_append,
        List.sum_append, List.map_cons, List.sum_cons, List.map_map, List.map_map]
      rfl
    have hTAexp : (A.map (fun a => (unit_cost risk q - unit_cost risk a) *
        (upperB maxS target a - x a.maker_bank))).sum =
        unit_cost risk q * (A.map (upperB maxS target)).sum -
          unit_cost risk q * (A.map (fun s => x s.maker_bank)).sum -
          (A.map (fun s => unit_cost risk s * upperB maxS target s)).sum +
          (A.map (fun s => unit_cost risk s * x s.maker_bank)).sum := by
      rw [sum_map_mul_expand A (fun _ => unit_cost risk q) (unit_cost risk)
        (upperB maxS target) (fun s => x s.maker_bank)]
      rw [sum_map_mul_const, sum_map_mul_const]
    have hTBexp : (B.map (fun b => (unit_cost risk b - unit_cost risk q) *
        (x b.maker_bank - lowerB minS target))).sum =
        (B.map (fun s => unit_cost risk s * x s.maker_bank)).sum -
          (B.map (fun s => unit_cost risk s * lowerB minS target)).sum -
          unit_cost risk q * (B.map (fun s => x s.maker_bank)).sum +
          unit_cost risk q * (B.map (fun _ => lowerB minS target)).sum := by
      rw [sum_map_mul_expand B (unit_cost risk) (fun _ => unit_cost risk q)
        (fun s => x s.maker_bank) (fun _ => lowerB minS target)]
      rw [sum_map_mul_const, sum_map_mul_const]
    have hTA0 : 0 ≤ (A.map (fun a => (unit_cost risk q - unit_cost risk a) *
        (upperB maxS target a - x a.maker_bank))).sum := by
      apply List.sum_nonneg
      intro t ht
      rcases List.mem_map.mp ht with ⟨a, ha, rfl⟩
      apply mul_nonneg
      · have := hAlt a ha; linarith
      · have := (hxb a (hmemA a ha)).2; linarith
    have hTB0 : 0 ≤ (B.map (fun b => (unit_cost risk b - unit_cost risk q) *
        (x b.maker_bank - lowerB minS target))).sum := by
      apply List.sum_nonneg
      intro t ht
      rcases List.mem_map.mp ht with ⟨b, hb, rfl⟩
      apply mul_nonneg
      · have := hBgt b hb; linarith
      · have := (hxb b (hmemB b hb)).1; linarith
    have hle : LpCost stats risk x ≤
        LpCost stats risk (gfun (greedy_allocation stats target minS maxS risk)) :=
      hmin _ (greedy_gfun_feasible stats target minS maxS risk x hnd hfeas)
    have hkey : (A.map (fun a => (unit_cost risk q - unit_cost risk a) *
          (upperB maxS target a - x a.maker_bank))).sum +
        (B.map (fun b => (unit_cost risk b - unit_cost risk q) *
          (x b.maker_bank - lowerB minS target))).sum =
        LpCost stats risk x - LpCost stats risk
          (gfun (greedy_allocation stats target minS maxS risk)) := by
      rw [hTAexp, hTBexp, hcx, hcg]
      linear_combination unit_cost risk q * hsgL - unit_cost risk q * hsxL
    have hTAz : (A.map (fun a => (unit_cost risk q - unit_cost risk a) *
        (upperB maxS target a - x a.maker_bank))).sum = 0 := by linarith
    have hTBz : (B.map (fun b => (unit_cost risk b - unit_cost risk q) *
        (x b.maker_bank - lowerB minS target))).sum = 0 := by linarith
    have hxA : ∀ a ∈ A, x a.maker_bank = upperB maxS target a := by
      intro a ha
      have h0 := eq_zero_of_sum_map_eq_zero A _
        (fun a2 ha2 => by
          apply mul_nonneg
          · have := hAlt a2 ha2; linarith
          · have := (hxb a2 (hmemA a2 ha2)).2; linarith) hTAz a ha
      rcases mul_eq_zero.mp h0 with h1 | h1
      · exact absurd h1 (by have := hAlt a ha; intro hcontra; linarith)
      · linarith
    have hxB : ∀ b ∈ B, x b.maker_bank = lowerB minS target := by
      intro b hb
      have h0 := eq_zero_of_sum_map_eq_zero B _
        (fun b2 hb2 => by
          apply mul_nonneg
          · have := hBgt b2 hb2; linarith
          · have := (hxb b2 (hmemB b2 hb2)).1; linarith) hTBz b hb
      rcases mul_eq_zero.mp h0 with h1 | h1
      · exact absurd h1 (by have := hBgt b hb; intro hcontra; linarith)
      · linarith
    have hxq : x q.maker_bank = v := by
      have hA_eq : (A.map (fun s => x s.maker_bank)).sum =
          (A.map (upperB maxS target)).sum := sum_map_eq_of_eqOn _ _ _ hxA
      have hB_eq : (B.map (fun s => x s.maker_bank)).sum =
          (B.map (fun _ => lowerB minS target)).sum := sum_map_eq_of_eqOn _ _ _ hxB
      rw [hA_eq, hB_eq] at hsxL
      linarith
    intro p hp
    rw [hGeq] at hp
    rcases List.mem_append.mp hp with hpa | hpqb
    · rcases List.mem_map.mp hpa with ⟨a, ha, rfl⟩
      exact hxA a ha
    · rcases List.mem_cons.mp hpqb with rfl | hpb
      · exact hxq
      · rcases List.mem_map.mp hpb with ⟨b, hb, rfl⟩
        exact hxB b hb

/-! ### Claim C4 -/

/-- C4 counterexample: with makers A (capacity 100), B, C (capacity 10000),
`target_volume = 1000`, `min_share = 0.3`, `max_share = 0.6`, maker A's
capacity 100 lies below the uniform lower bound 300, the parameters are
valid and there are 3 makers, yet `preCheck` returns `none`: no error is
raised before the solver is invoked, contradicting the claim that such a
request is declared infeasible before solving. -/
theorem capacity_below_lower_precheck_counterexample :
    (⟨"A", 1, 0, 100⟩ : MakerStat) ∈ stats4 ∧
    (⟨"A", 1, 0, 100⟩ : MakerStat).capacity < lowerB (3/10) 1000 ∧
    0 < (1000 : ℚ) ∧ (0 ≤ (3 : ℚ)/10 ∧ (3 : ℚ)/10 ≤ 3/5 ∧ (3 : ℚ)/5 ≤ 1) ∧
    2 ≤ stats4.length ∧
    preCheck stats4 1000 (3/10) (3/5) = none := by
  refine ⟨by simp [stats4], by norm_num [lowerB], by norm_num, by norm_num,
    by simp [stats4], ?_⟩
  norm_num [preCheck, sumLower, sumUpper, lowerB, upperB, stats4]

/-- C4 (amended): a maker whose capacity lies below the uniform lower bound
is not necessarily caught by the checks that run before the solver (see the
counterexample); what does hold is that the feasible region of the LP is
then empty, so the solve stage cannot return an allocation — the request
fails at the solver (non-`Optimal` status, line 146), not before it. -/
theorem capacity_below_lower_empty_region (stats : List MakerStat)
    (target minS maxS : ℚ) (s : MakerStat) (hs : s ∈ stats)
    (hcap : s.capacity < lowerB minS target) :
    ∀ x, ¬ LpFeasible stats target minS maxS x := by
  intro x hx
  rcases hx.2 s hs with ⟨h1, h2⟩
  have h3 : upperB maxS target s ≤ s.capacity := min_le_right _ _
  linarith

/-- C4 witness: on the concrete `stats4` input the amended theorem rules
out the uniform allocation 1000/3, and in fact every allocation. -/
theorem capacity_below_lower_empty_region_witness :
    ¬ LpFeasible stats4 1000 (3/10) (3/5) (fun _ => 1000/3) :=
  capacity_below_lower_empty_region stats4 1000 (3/10) (3/5) ⟨"A", 1, 0, 100⟩
    (by simp [stats4]) (by norm_num [lowerB]) (fun _ => 1000/3)

/-! ### Claim C5 -/

/-- C5 counterexample: with two zero-capacity makers and
`min_share = max_share = 3/5`, `target_volume = 100`, the capacity
condition `Σ upper + 1e-9 < target` holds, yet the raised error is
`InfeasibleLowerBoundError` (the floor check fires first), not
`InfeasibleCapacityError` as the claim's second conditional states. -/
theorem preCheck_both_infeasible_counterexample :
    sumUpper statsZ (3/5) 100 + 1/1000000000 < 100 ∧
    preCheck statsZ 100 (3/5) (3/5) = some OptError.infeasibleLowerBound ∧
    OptError.infeasibleLowerBound ≠ OptError.infeasibleCapacity := by
  refine ⟨by norm_num [sumUpper, upperB, statsZ], ?_, by simp⟩
  norm_num [preCheck, sumLower, sumUpper, lowerB, upperB, statsZ]

/-- C5 (amended): with valid parameters and at least 2 makers, the
pre-solver check sequence raises `InfeasibleLowerBoundError` when
`Σ lower` exceeds the target beyond tolerance `1e-9`, and raises
`InfeasibleCapacityError` when the floor check passes and `Σ upper` falls
short of the target beyond the same tolerance; both failures are produced
by `preCheck`, i.e. before the solver is invoked. -/
theorem preCheck_feasibility_errors (stats : List MakerStat) (target minS maxS : ℚ)
    (htv : 0 < target) (hsh : 0 ≤ minS ∧ minS ≤ maxS ∧ maxS ≤ 1)
    (hn : 2 ≤ stats.length) :
    (target < sumLower stats minS target - 1/1000000000 →
      preCheck stats target minS maxS = some OptError.infeasibleLowerBound) ∧
    (¬ (target < sumLower stats minS target - 1/1000000000) →
      sumUpper stats maxS target + 1/1000000000 < target →
      preCheck stats target minS maxS = some OptError.infeasibleCapacity) := by
  unfold preCheck
  rw [if_neg (by linarith), if_neg (not_not_intro hsh), if_neg (by omega)]
  constructor
  · intro h
    rw [if_pos h]
  · intro h1 h2
    rw [if_neg h1, if_pos h2]

/-- C5 witness: `statsU` with `target_volume = 1000` and
`max_share = 1/10` has total upper bounds 200, short of the target: the
capacity branch of the amended theorem fires. -/
theorem preCheck_feasibility_errors_witness :
    preCheck statsU 1000 0 (1/10) = some OptError.infeasibleCapacity :=
  (preCheck_feasibility_errors statsU 1000 0 (1/10) (by norm_num) (by norm_num)
      (by simp [statsU])).2
    (by norm_num [sumLower, lowerB, statsU])
    (by norm_num [sumUpper, upperB, statsU])

/-! ### Claim C8 -/

/-- C8 counterexample: a table missing every required column, submitted
with the invalid `target_volume = -1`, fails with the parameter-validation
error of line 112, not with the missing-columns `DataError`: the
validation of lines 111-114 runs before `_prepare_maker_stats`, so the
claim's "for all values of the other request parameters" is false. -/
theorem validation_preempts_dataError_counterexample :
    missingColumns dfBad ≠ [] ∧
    optimize_allocation_err dfBad (-1) (1/2) (1/2) (95/100) =
      some OptError.validationTarget ∧
    OptError.validationTarget ≠ OptError.dataMissing (missingColumns dfBad) := by
  refine ⟨by simp [missingColumns, requiredColumns, dfBad], ?_, by simp⟩
  norm_num [optimize_allocation_err]

/-- C8 (amended): for valid `target_volume` and share parameters, a table
missing required fields makes `optimize_allocation` fail with the
missing-columns `DataError` of line 66, whose message lists exactly the
sorted missing column names. -/
theorem missing_columns_dataError (df : DataFrame) (target minS maxS pct : ℚ)
    (htv : 0 < target) (hsh : 0 ≤ minS ∧ minS ≤ maxS ∧ maxS ≤ 1)
    (hmiss : missingColumns df ≠ []) :
    optimize_allocation_err df target minS maxS pct =
      some (OptError.dataMissing (missingColumns df)) := by
  unfold optimize_allocation_err
  rw [if_neg (by linarith), if_neg (not_not_intro hsh), if_pos hmiss]

/-- C8 witness: the table missing `amount` and `trade_date` fails with a
`DataError` naming exactly those two columns, in sorted order. -/
theorem missing_columns_dataError_witness :
    optimize_allocation_err dfMiss 5 (1/10) (1/2) (95/100) =
      some (OptError.dataMissing ["amount", "trade_date"]) := by
  have h := missing_columns_dataError dfMiss 5 (1/10) (1/2) (95/100)
    (by norm_num) (by norm_num)
    (by simp [missingColumns, requiredColumns, dfMiss])
  rwa [show missingColumns dfMiss = ["amount", "trade_date"] from by
    simp [missingColumns, requiredColumns, dfMiss]] at h

/-! ### Claim C10 -/

/-- C10: every allocation table built at line 175 is ordered by
`alloc_volume` in descending order, and its rows are exactly the per-maker
rows (a permutation of them — the original index is discarded and the
positional index of the list is fresh), not the input or maker-identifier
order. -/
theorem alloc_df_sorted_descending (stats : List MakerStat)
    (target minS maxS risk : ℚ) (x : String → ℚ) :
    List.Sorted rowGE (alloc_df stats target minS maxS risk x) ∧
    List.Perm (alloc_df stats target minS maxS risk x)
      (stats.map (allocRow target minS maxS risk x)) :=
  ⟨List.sorted_insertionSort rowGE _, List.perm_insertionSort rowGE _⟩

/-! ### Claim C2 -/

/-- C2: for every request that passes all pre-solver checks and every
allocation satisfying the LP constraints (in particular the one returned
by a successful solve), the `alloc_volume` column of the returned table
sums to `target_volume` within tolerance `1e-6` (in the exact rational
model the sum is exactly the target). -/
theorem alloc_volumes_sum_to_target (stats : List MakerStat)
    (target minS maxS risk : ℚ) (x : String → ℚ)
    (hpre : preCheck stats target minS maxS = none)
    (hfeas : LpFeasible stats target minS maxS x) :
    |((alloc_df stats target minS maxS risk x).map AllocRow.alloc_volume).sum - target| ≤
      1/1000000 := by
  have hperm : List.Perm (alloc_df stats target minS maxS risk x)
      (stats.map (allocRow target minS maxS risk x)) := List.perm_insertionSort rowGE _
  have h1 : ((alloc_df stats target minS maxS risk x).map AllocRow.alloc_volume).sum =
      ((stats.map (allocRow target minS maxS risk x)).map AllocRow.alloc_volume).sum :=
    (hperm.map AllocRow.alloc_volume).sum_eq
  have h2 : ((stats.map (allocRow target minS maxS risk x)).map AllocRow.alloc_volume).sum =
      allocSum stats x := by
    rw [List.map_map]
    rfl
  rw [h1, h2, hfeas.1]
  norm_num

/-- C2 witness: the feasible allocation `xW` (A 60, B 40) on `statsU`
with `target_volume = 100`. -/
theorem alloc_volumes_sum_to_target_witness :
    |((alloc_df statsU 100 0 1 0 xW).map AllocRow.alloc_volume).sum - 100| ≤ 1/1000000 := by
  apply alloc_volumes_sum_to_target statsU 100 0 1 0 xW
  · norm_num [preCheck, sumLower, sumUpper, lowerB, upperB, statsU]
  · constructor
    · simp only [allocSum, statsU, xW, List.map_cons, List.map_nil, List.sum_cons,
        List.sum_nil, String.reduceEq, reduceIte]
      norm_num
    · intro s hs
      rcases (by simpa [statsU] using hs : s = ⟨"A", 1, 0, 200⟩ ∨ s = ⟨"B", 2, 0, 200⟩) with
        rfl | rfl <;>
        · simp only [xW, lowerB, upperB, String.reduceEq, reduceIte]
          norm_num

/-! ### Claim C3 -/

/-- C3: for every request passing the pre-solver checks and every
allocation satisfying the LP constraints, each row of the returned table
respects `lower_bound ≤ alloc_volume ≤ upper_bound`, where the row's
bounds are `min_share * target_volume` and
`min(max_share * target_volume, capacity)`. -/
theorem alloc_rows_respect_bounds (stats : List MakerStat)
    (target minS maxS risk : ℚ) (x : String → ℚ)
    (hpre : preCheck stats target minS maxS = none)
    (hfeas : LpFeasible stats target minS maxS x) :
    ∀ r ∈ alloc_df stats target minS maxS risk x,
      r.lower_bound ≤ r.alloc_volume ∧ r.alloc_volume ≤ r.upper_bound := by
  intro r hr
  have hperm : List.Perm (alloc_df stats target minS maxS risk x)
      (stats.map (allocRow target minS maxS risk x)) := List.perm_insertionSort rowGE _
  rcases List.mem_map.mp (hperm.mem_iff.mp hr) with ⟨s, hs, rfl⟩
  exact hfeas.2 s hs

/-- C3 witness: the bounds hold on the row of maker A in the `statsU`
table with the feasible allocation `xW`. -/
theorem alloc_rows_respect_bounds_witness :
    (allocRow 100 0 1 0 xW ⟨"A", 1, 0, 200⟩).lower_bound ≤
      (allocRow 100 0 1 0 xW ⟨"A", 1, 0, 200⟩).alloc_volume ∧
    (allocRow 100 0 1 0 xW ⟨"A", 1, 0, 200⟩).alloc_volume ≤
      (allocRow 100 0 1 0 xW ⟨"A", 1, 0, 200⟩).upper_bound := by
  apply alloc_rows_respect_bounds statsU 100 0 1 0 xW
  · norm_num [preCheck, sumLower, sumUpper, lowerB, upperB, statsU]
  · constructor
    · simp only [allocSum, statsU, xW, List.map_cons, List.map_nil, List.sum_cons,
        List.sum_nil, String.reduceEq, reduceIte]
      norm_num
    · intro s hs
      rcases (by simpa [statsU] using hs : s = ⟨"A", 1, 0, 200⟩ ∨ s = ⟨"B", 2, 0, 200⟩) with
        rfl | rfl <;>
        · simp only [xW, lowerB, upperB, String.reduceEq, reduceIte]
          norm_num
  · have hperm : List.Perm (alloc_df statsU 100 0 1 0 xW)
        (statsU.map (allocRow 100 0 1 0 xW)) := List.perm_insertionSort rowGE _
    rw [hperm.mem_iff]
    exact List.mem_map.mpr ⟨⟨"A", 1, 0, 200⟩, by simp [statsU], rfl⟩

/-! ### Claim C6 -/

/-- C6 counterexample: in the spec §8 scenario, maker B's upper bound is
`min(0.6 * 1000, 500) = 500`, not 600, and the computed allocation gives B
exactly 500; the claim's "fills B to its upper bound of 600" is false. -/
theorem scenario_upper_bound_counterexample :
    upperB (3/5) 1000 ⟨"B", 1, 0, 500⟩ = 500 ∧
    upperB (3/5) 1000 ⟨"B", 1, 0, 500⟩ ≠ 600 ∧
    greedy_allocation stats6 1000 (1/10) (3/5) 0 =
      [(⟨"B", 1, 0, 500⟩, 500), (⟨"A", 101/100, 0, 600⟩, 400), (⟨"C", 51/50, 0, 400⟩, 100)] := by
  refine ⟨by norm_num [upperB], by norm_num [upperB], ?_⟩
  norm_num [greedy_allocation, greedyGo, sortMakers, List.insertionSort,
    List.orderedInsert, makerLE, unit_cost, sumLower, lowerB, upperB, stats6]

/-- C6 (amended): in the spec §8 scenario (makers A, B, C with `avg_rate`
1.01, 1.00, 1.02, capacities 600, 500, 400, `target_volume = 1000`,
`min_share = 0.1`, `max_share = 0.6`, `risk_aversion = 0`) the computed
allocation fills B — the cheapest maker — first, to its upper bound of
**500** (= min(600, capacity 500)), then A up to the remaining volume
(400), leaving C at its lower bound 100; B receives the largest share. -/
theorem scenario_allocation :
    greedy_allocation stats6 1000 (1/10) (3/5) 0 =
      [(⟨"B", 1, 0, 500⟩, 500), (⟨"A", 101/100, 0, 600⟩, 400), (⟨"C", 51/50, 0, 400⟩, 100)] ∧
    upperB (3/5) 1000 ⟨"B", 1, 0, 500⟩ = 500 ∧
    (500 : ℚ) = max 500 (max 400 100) := by
  refine ⟨?_, by norm_num [upperB], by norm_num⟩
  norm_num [greedy_allocation, greedyGo, sortMakers, List.insertionSort,
    List.orderedInsert, makerLE, unit_cost, sumLower, lowerB, upperB, stats6]

/-! ### Claim C1 -/

/-- C1 counterexample: with two makers of identical unit cost 1 the LP has
several optima; `xTie` (everything to B) is optimal and passes all checks,
yet it differs from the greedy allocation with lexicographic tie-break
(everything to A) by 100, far beyond any floating-point tolerance.  The
external solver is only bound to return *some* optimum, so the returned
allocation need not match the greedy one when exact ties occur. -/
theorem lp_greedy_tie_counterexample :
    preCheck statsTie 100 0 1 = none ∧
    LpOptimal statsTie 100 0 1 0 xTie ∧
    ¬ (∀ p ∈ greedy_allocation statsTie 100 0 1 0,
        |xTie p.1.maker_bank - p.2| ≤ 1/1000000) := by
  refine ⟨?_, ⟨⟨?_, ?_⟩, ?_⟩, ?_⟩
  · norm_num [preCheck, sumLower, sumUpper, lowerB, upperB, statsTie]
  · simp only [allocSum, statsTie, xTie, List.map_cons, List.map_nil, List.sum_cons,
      List.sum_nil, String.reduceEq, reduceIte]
    norm_num
  · intro s hs
    rcases (by simpa [statsTie] using hs :
        s = ⟨"A", 1, 0, 100⟩ ∨ s = ⟨"B", 1, 0, 100⟩) with rfl | rfl <;>
      · simp only [xTie, lowerB, upperB, String.reduceEq, reduceIte]
        norm_num
  · intro y hy
    have hsum := hy.1
    simp only [allocSum, statsTie, List.map_cons, List.map_nil, List.sum_cons,
      List.sum_nil] at hsum
    simp only [LpCost, statsTie, unit_cost, xTie, List.map_cons, List.map_nil,
      List.sum_cons, List.sum_nil, String.reduceEq, reduceIte]
    linarith
  · intro hforall
    have hmem : ((⟨"A", 1, 0, 100⟩ : MakerStat), (100 : ℚ)) ∈
        greedy_allocation statsTie 100 0 1 0 := by
      rw [show greedy_allocation statsTie 100 0 1 0 =
          [(⟨"A", 1, 0, 100⟩, 100), (⟨"B", 1, 0, 100⟩, 0)] from by
        norm_num [greedy_allocation, greedyGo, sortMakers, List.insertionSort,
          List.orderedInsert, makerLE, unit_cost, sumLower, lowerB, upperB, statsTie]]
      simp
    have habs := hforall _ hmem
    simp only [xTie, String.reduceEq, reduceIte] at habs
    norm_num [abs_of_nonpos] at habs

/-- C1 (amended): for every input passing all pre-solver checks whose
makers have pairwise distinct identifiers **and pairwise distinct unit
costs**, every optimal solution of the LP — in particular the allocation
a successful solve returns — coincides exactly (hence within any
floating-point tolerance) with the allocation of the constructive greedy
algorithm of spec §4.3.  The counterexample shows the distinct-cost
hypothesis is necessary: under exact ties the LP optimum is not unique. -/
theorem lp_refines_greedy (stats : List MakerStat) (target minS maxS risk : ℚ)
    (x : String → ℚ)
    (hnd : (stats.map MakerStat.maker_bank).Nodup)
    (hcost : (stats.map (unit_cost risk)).Nodup)
    (hpre : preCheck stats target minS maxS = none)
    (hopt : LpOptimal stats target minS maxS risk x) :
    ∀ p ∈ greedy_allocation stats target minS maxS risk, x p.1.maker_bank = p.2 :=
  greedy_unique stats target minS maxS risk x hnd hcost hopt.1 hopt.2

/-- C1 witness: on `statsU` (unit costs 1 < 2, `target_volume = 100`,
`min_share = 0`, `max_share = 1`) the optimal allocation `xU` is matched
against the two greedy pairs: A receives 100, B receives 0. -/
theorem lp_refines_greedy_witness :
    LpOptimal statsU 100 0 1 0 xU ∧ xU "A" = 100 ∧ xU "B" = 0 := by
  have hopt : LpOptimal statsU 100 0 1 0 xU := by
    refine ⟨⟨?_, ?_⟩, ?_⟩
    · simp only [allocSum, statsU, xU, List.map_cons, List.map_nil, List.sum_cons,
        List.sum_nil, String.reduceEq, reduceIte]
      norm_num
    · intro s hs
      rcases (by simpa [statsU] using hs :
          s = ⟨"A", 1, 0, 200⟩ ∨ s = ⟨"B", 2, 0, 200⟩) with rfl | rfl <;>
        · simp only [xU, lowerB, upperB, String.reduceEq, reduceIte]
          norm_num
    · intro y hy
      have hsum := hy.1
      have hBlow := (hy.2 ⟨"B", 2, 0, 200⟩ (by simp [statsU])).1
      simp only [allocSum, statsU, List.map_cons, List.map_nil, List.sum_cons,
        List.sum_nil] at hsum
      simp only [lowerB] at hBlow
      simp only [LpCost, statsU, unit_cost, xU, List.map_cons, List.map_nil,
        List.sum_cons, List.sum_nil, String.reduceEq, reduceIte]
      linarith
  have hgreedy : greedy_allocation statsU 100 0 1 0 =
      [(⟨"A", 1, 0, 200⟩, 100), (⟨"B", 2, 0, 200⟩, 0)] := by
    norm_num [greedy_allocation, greedyGo, sortMakers, List.insertionSort,
      List.orderedInsert, makerLE, unit_cost, sumLower, lowerB, upperB, statsU]
  have h := lp_refines_greedy statsU 100 0 1 0 xU
    (by simp [statsU, String.reduceEq])
    (by norm_num [statsU, unit_cost, List.nodup_cons])
    (by norm_num [preCheck, sumLower, sumUpper, lowerB, upperB, statsU])
    hopt
  refine ⟨hopt, ?_, ?_⟩
  · exact h (⟨"A", 1, 0, 200⟩, 100) (by rw [hgreedy]; simp)
  · exact h (⟨"B", 2, 0, 200⟩, 0) (by rw [hgreedy]; simp)

/-! ### Claim C9 -/

/-- C9: with non-negative trade amounts (the input contract of spec §6),
`baseline_allocation_cost` returns exactly 0 when the total historical
volume is 0, and otherwise returns
`Σ_m (total_volume_m / Σ total_volume) * target_volume * avg_rate_m`. -/
theorem baseline_cost_spec (df : DataFrame) (target : ℚ)
    (hpos : ∀ r ∈ df.rows, 0 ≤ r.amount) :
    (totalVol df = 0 → baseline_allocation_cost df target = 0) ∧
    (totalVol df ≠ 0 → baseline_allocation_cost df target = specBaselineCost df target) := by
  have htot : 0 ≤ totalVol df := by
    apply List.sum_nonneg
    intro v hv
    rcases List.mem_map.mp hv with ⟨mm, hmm, rfl⟩
    apply List.sum_nonneg
    intro w hw
    rcases List.mem_map.mp hw with ⟨r, hr, rfl⟩
    exact hpos r (List.mem_of_mem_filter hr)
  constructor
  · intro h0
    unfold baseline_allocation_cost
    rw [if_pos (le_of_eq h0)]
  · intro hne
    have hgt : 0 < totalVol df := lt_of_le_of_ne htot (Ne.symm hne)
    unfold baseline_allocation_cost specBaselineCost
    rw [if_neg (by linarith)]
    apply sum_map_eq_of_eqOn
    intro m hm
    rw [if_pos hm]

/-- C9 witness: on the concrete table `dfW` (total volume 42) the baseline
cost equals the proportional formula, and on the empty table `dfE` (total
volume 0) it is exactly 0. -/
theorem baseline_cost_spec_witness :
    baseline_allocation_cost dfW 100 = specBaselineCost dfW 100 ∧
    baseline_allocation_cost dfE 100 = 0 := by
  constructor
  · refine (baseline_cost_spec dfW 100 ?_).2 ?_
    · intro r hr
      rcases (by simpa [dfW] using hr :
          r = ⟨"d1", "A", 10, 1⟩ ∨ r = ⟨"d1", "A", 20, 1⟩ ∨
          r = ⟨"d2", "A", 5, 1⟩ ∨ r = ⟨"d1", "B", 7, 2⟩) with rfl | rfl | rfl | rfl <;>
        norm_num
    · simp [totalVol, makersOf, total_volume_of, rowsOf, dfW, List.insertionSort,
        List.orderedInsert, List.filter_cons, List.dedup_cons_of_mem,
        List.dedup_cons_of_not_mem, String.reduceEq,
        show (['A'] : List Char) ≤ ['B'] from by decide]
      norm_num
  · refine (baseline_cost_spec dfE 100 (by simp [dfE])).1 ?_
    simp [totalVol, makersOf, dfE]

/-! ### Claim C7 -/

/-- The linear-interpolation quantile of a one-element series is that
element, for every quantile level: the degenerate case of C7. -/
theorem pandasQuantile_singleton (q v : ℚ) : pandasQuantile q [v] = v := by
  unfold pandasQuantile
  norm_num

/-- C7: the capacity of every maker present in the table is the
`capacity_percentile` quantile of that maker's per-day volumes: the code
first sums `amount` within each `(trade_date, maker_bank)` pair
(`dailyKeys`/`dayVolume`) and then takes the quantile of the maker's day
values; this equals the quantile of the per-day series read directly off
the maker's rows, and a maker with exactly one trading day gets that day's
summed volume. -/
theorem capacity_is_daily_quantile (df : DataFrame) (pct : ℚ) (m : String)
    (hm : m ∈ makersOf df) :
    capacityOf df pct m = pandasQuantile pct (sortQ (perDaySeries df m)) ∧
    ((perDaySeries df m).length = 1 →
      capacityOf df pct m = (perDaySeries df m).getD 0 0) := by
  have hnd1 : ((dailyKeys df).filter (fun p => p.2 == m)).Nodup :=
    List.Nodup.filter _ (List.nodup_dedup _)
  have hnd2 : ((((rowsOf df m).map TradeRow.trade_date).dedup).map
      (fun d => (d, m))).Nodup :=
    List.Nodup.map (fun a b h => by simpa using congrArg Prod.fst h) (List.nodup_dedup _)
  have hmemiff : ∀ p, p ∈ (dailyKeys df).filter (fun p => p.2 == m) ↔
      p ∈ (((rowsOf df m).map TradeRow.trade_date).dedup).map (fun d => (d, m)) := by
    intro p
    constructor
    · intro hp
      rcases List.mem_filter.mp hp with ⟨hpk, hpm⟩
      have hpm2 : p.2 = m := by simpa using hpm
      rcases List.mem_map.mp (List.mem_dedup.mp hpk) with ⟨r, hr, hrp⟩
      have hrm : r.maker_bank = m := by
        have : p.2 = r.maker_bank := by rw [← hrp]
        rw [← this, hpm2]
      apply List.mem_map.mpr
      refine ⟨r.trade_date, ?_, ?_⟩
      · apply List.mem_dedup.mpr
        apply List.mem_map.mpr
        refine ⟨r, ?_, rfl⟩
        exact List.mem_filter.mpr ⟨hr, by simp [hrm]⟩
      · rw [← hrp, hrm]
    · intro hp
      rcases List.mem_map.mp hp with ⟨d, hd, hdp⟩
      rcases List.mem_map.mp (List.mem_dedup.mp hd) with ⟨r, hr, hrd⟩
      rcases List.mem_filter.mp hr with ⟨hrrows, hrm⟩
      have hrm2 : r.maker_bank = m := by simpa using hrm
      apply List.mem_filter.mpr
      constructor
      · apply List.mem_dedup.mpr
        apply List.mem_map.mpr
        refine ⟨r, hrrows, ?_⟩
        rw [← hdp, ← hrd, hrm2]
      · rw [← hdp]
        simp
  have hperm1 : List.Perm ((dailyKeys df).filter (fun p => p.2 == m))
      ((((rowsOf df m).map TradeRow.trade_date).dedup).map (fun d => (d, m))) :=
    (List.perm_ext_iff_of_nodup hnd1 hnd2).mpr hmemiff
  have hperm2 : List.Perm (makerDayValues df m) (perDaySeries df m) := by
    have h := hperm1.map (fun p => dayVolume df m p.1)
    rw [List.map_map] at h
    exact h
  have hsort : sortQ (makerDayValues df m) = sortQ (perDaySeries df m) := by
    have hs1 : List.Sorted (fun a b : ℚ => a ≤ b) (sortQ (makerDayValues df m)) :=
      List.sorted_insertionSort _ _
    have hs2 : List.Sorted (fun a b : ℚ => a ≤ b) (sortQ (perDaySeries df m)) :=
      List.sorted_insertionSort _ _
    exact List.eq_of_perm_of_sorted
      (((List.perm_insertionSort _ _).trans hperm2).trans
        (List.perm_insertionSort _ _).symm) hs1 hs2
  have hmain : capacityOf df pct m = pandasQuantile pct (sortQ (perDaySeries df m)) := by
    unfold capacityOf
    rw [hsort]
  refine ⟨hmain, ?_⟩
  intro hlen
  rcases List.length_eq_one.mp hlen with ⟨v, hv⟩
  rw [hmain, hv]
  have hsv : sortQ [v] = [v] := rfl
  rw [hsv, pandasQuantile_singleton]
  simp

/-- C7 witness: maker B of the concrete table `dfW` trades on exactly one
day with summed volume 7, and its capacity at the default 0.95 percentile
is that day's volume. -/
theorem capacity_is_daily_quantile_witness :
    "B" ∈ makersOf dfW ∧
    capacityOf dfW (95/100) "B" = (perDaySeries dfW "B").getD 0 0 ∧
    capacityOf dfW (95/100) "B" = 7 := by
  have hmem : "B" ∈ makersOf dfW := by
    norm_num [makersOf, dfW, List.insertionSort, List.orderedInsert,
      List.dedup_cons_of_mem, List.dedup_cons_of_not_mem,
      show (['A'] : List Char) ≤ ['B'] from by decide]
  have hlen : (perDaySeries dfW "B").length = 1 := by
    simp [perDaySeries, rowsOf, dfW, dayVolume, List.filter_cons, String.reduceEq,
      List.dedup_cons_of_mem, List.dedup_cons_of_not_mem]
  have h := capacity_is_daily_quantile dfW (95/100) "B" hmem
  have hval : (perDaySeries dfW "B").getD 0 0 = 7 := by
    simp [perDaySeries, rowsOf, dfW, dayVolume, List.filter_cons, String.reduceEq,
      List.dedup_cons_of_mem, List.dedup_cons_of_not_mem, List.getD]
  exact ⟨hmem, h.2 hlen, (h.2 hlen).trans hval⟩
